import Mathlib

/-!
Verification of the record aggregation / deduplication / enrichment pipeline
of the sf-insurance-scraper repository.

Strings from the Python code are modelled as `List Char` (ASCII data).
Pure functions of `scraper.py` and `enrich_sf.py` are embedded directly;
network fetches are passed in as explicit oracle functions, so that every
definition stays executable.
-/

/-- Convert a Lean string literal to the `List Char` representation used
throughout this development. -/
def chars (s : String) : List Char := s.data

/-- Characters kept by the identity-key normalisation: the Python code keeps
exactly `[a-z0-9]` after lower-casing (`re.sub(r"[^a-z0-9]", "", x.lower())`). -/
def normChar (c : Char) : Bool := c.isLower || c.isDigit

/-- Embedding of `re.sub(r"[^a-z0-9]", "", s.lower())` from
`InsuranceCompany.dedup_key` (scraper.py lines 56-61). -/
def normalizeField (s : List Char) : List Char :=
  (s.map Char.toLower).filter normChar

/-- Embedding of the `InsuranceCompany` dataclass (scraper.py lines 39-54),
with the dataclass defaults (`state = "CA"`, all other optional fields empty). -/
structure InsuranceCompany where
  name : List Char
  address : List Char := []
  city : List Char := []
  state : List Char := chars "CA"
  zip_code : List Char := []
  phone : List Char := []
  website : List Char := []
  email : List Char := []
  rating : List Char := []
  review_count : List Char := []
  categories : List Char := []
  description : List Char := []
  source : List Char := []
  source_url : List Char := []
deriving DecidableEq, Repr

/-- Embedding of the `dedup_key` property (scraper.py lines 56-61):
normalised name and normalised city joined by an underscore
(`f"{norm}_{city}"`). -/
def dedup_key (r : InsuranceCompany) : List Char :=
  normalizeField r.name ++ '_' :: normalizeField r.city

/-- Embedding of Python's substring containment test `needle in hay`. -/
def isSubOf : List Char → List Char → Bool
  | n, [] => n.isEmpty
  | n, c :: cs => n.isPrefixOf (c :: cs) || isSubOf n cs

/-- The nine mergeable fields of the dedup merge loop
(scraper.py lines 765-766). -/
inductive MField where
  | address | phone | website | email | rating
  | review_count | categories | description | zip_code
deriving DecidableEq, Repr

/-- Field accessor for the nine mergeable fields. -/
def mfield : MField → InsuranceCompany → List Char
  | .address, r => r.address
  | .phone, r => r.phone
  | .website, r => r.website
  | .email, r => r.email
  | .rating, r => r.rating
  | .review_count, r => r.review_count
  | .categories, r => r.categories
  | .description, r => r.description
  | .zip_code, r => r.zip_code

/-- Embedding of one merge step of `deduplicate` (scraper.py lines 763-773):
for each mergeable field, copy the incoming value only when the retained value
is empty (`if not existing_val and new_val`), and append the incoming `source`
label unless it already occurs inside the retained `source` string
(Python substring test `company.source not in existing.source`). -/
def mergeInto (existing incoming : InsuranceCompany) : InsuranceCompany :=
  { existing with
    address := if existing.address.isEmpty then incoming.address else existing.address
    phone := if existing.phone.isEmpty then incoming.phone else existing.phone
    website := if existing.website.isEmpty then incoming.website else existing.website
    email := if existing.email.isEmpty then incoming.email else existing.email
    rating := if existing.rating.isEmpty then incoming.rating else existing.rating
    review_count := if existing.review_count.isEmpty then incoming.review_count
      else existing.review_count
    categories := if existing.categories.isEmpty then incoming.categories
      else existing.categories
    description := if existing.description.isEmpty then incoming.description
      else existing.description
    zip_code := if existing.zip_code.isEmpty then incoming.zip_code else existing.zip_code
    source := if isSubOf incoming.source existing.source then existing.source
      else existing.source ++ ',' :: ' ' :: incoming.source }

/-- One iteration of the `deduplicate` loop (scraper.py lines 760-775) over the
insertion-ordered map `seen`, modelled as the list of retained records: a record
whose key is already present is merged into the retained record in place,
otherwise it is appended as a new retained record. -/
def mergeFirst : List InsuranceCompany → InsuranceCompany → List InsuranceCompany
  | [], c => [c]
  | r :: rs, c =>
    if dedup_key r = dedup_key c then mergeInto r c :: rs
    else r :: mergeFirst rs c

/-- Embedding of `deduplicate` (scraper.py lines 756-777): fold the input
records in order through the insertion-ordered retained map and return the
retained records in insertion order (`list(seen.values())`). -/
def deduplicate (results : List InsuranceCompany) : List InsuranceCompany :=
  results.foldl mergeFirst []

/-- Boolean test that a record has identity key `k`. -/
def keyIs (k : List Char) (r : InsuranceCompany) : Bool :=
  decide (dedup_key r = k)

/-- The records of an input sequence that carry identity key `k`, in input
order (the dedup group of `k`). -/
def keyGroup (l : List InsuranceCompany) (k : List Char) : List InsuranceCompany :=
  l.filter (keyIs k)

/-- First record of a list whose identity key is `k`. -/
def findKey : List InsuranceCompany → List Char → Option InsuranceCompany
  | [], _ => none
  | r :: rs, k => if dedup_key r = k then some r else findKey rs k

/-- Folding a whole dedup group into its first-seen record. -/
def mergeGroup (a : InsuranceCompany) (l : List InsuranceCompany) : InsuranceCompany :=
  l.foldl mergeInto a

/-- The retained record of a non-empty dedup group. -/
def groupResult : List InsuranceCompany → Option InsuranceCompany
  | [] => none
  | g :: gs => some (mergeGroup g gs)

/-- First non-empty value of a list of field values (empty when there is
none). -/
def firstNonEmpty : List (List Char) → List Char
  | [] => []
  | v :: vs => if v.isEmpty then firstNonEmpty vs else v

/-- The source-label accumulation of one merge step: append the incoming label
to the retained comma-joined `source` string unless it already occurs as a
substring of it. -/
def appendSource (s t : List Char) : List Char :=
  if isSubOf t s then s else s ++ ',' :: ' ' :: t

/-- Source-label accumulation over a whole dedup group. -/
def srcFold (s : List Char) (ts : List (List Char)) : List Char :=
  ts.foldl appendSource s

/-!
Field extractors (scraper.py lines 160-177 and enrich_sf.py lines 39-60).
The Python regexes are embedded as explicit scanners with the same
leftmost-match and greedy-with-backtracking semantics on the character
classes that occur in the patterns.  `Char.isWhitespace` models the regex
whitespace class on the whitespace characters that occur in this data.
-/

/-- The character class `[A-Za-z\s]` of the city patterns. -/
def cityClass (c : Char) : Bool := c.isAlpha || c.isWhitespace

/-- All ways of splitting a greedy run into a consumed prefix and the
remaining input, longest consumed prefix first — the order in which a
backtracking regex engine offers the split.  `run` is the maximal run the
subpattern can consume and `rest0` the input following it. -/
def splitsDesc (run rest0 : List Char) : List (List Char × List Char) :=
  (List.range (run.length + 1)).reverse.map (fun j => (run.take j, run.drop j ++ rest0))

/-- The tail `,\s*CA` of city pattern 1 (`r",\s*([A-Za-z\s]+),\s*CA"`),
checked after the captured group. -/
def cityTail1 (l : List Char) : Bool :=
  match l with
  | ',' :: rest =>
    match rest.dropWhile Char.isWhitespace with
    | 'C' :: 'A' :: _ => true
    | _ => false
  | _ => false

/-- The tail `\s+CA` of city pattern 2 (`r",\s*([A-Za-z\s]+)\s+CA"`),
checked after the captured group. -/
def cityTail2 (l : List Char) : Bool :=
  match l with
  | c :: rest =>
    c.isWhitespace &&
      match rest.dropWhile Char.isWhitespace with
      | 'C' :: 'A' :: _ => true
      | _ => false
  | [] => false

/-- Try one city pattern at a position directly after a `,`: enumerate the
`\s*` splits (longest first), then the `([A-Za-z\s]+)` group splits (longest
first, non-empty), and accept the first combination whose tail matches. -/
def cityAtComma (tail : List Char → Bool) (after : List Char) : Option (List Char) :=
  (splitsDesc (after.takeWhile Char.isWhitespace) (after.dropWhile Char.isWhitespace)).findSome?
    (fun w =>
      (splitsDesc (w.2.takeWhile cityClass) (w.2.dropWhile cityClass)).findSome?
        (fun g => if !g.1.isEmpty && tail g.2 then some g.1 else none))

/-- Leftmost-match scan of a city pattern: both patterns start with a literal
`,`, so the scan attempts the pattern after every comma, left to right. -/
def citySearch (tail : List Char → Bool) : List Char → Option (List Char)
  | [] => none
  | c :: rest =>
    if c = ',' then
      match cityAtComma tail rest with
      | some g => some g
      | none => citySearch tail rest
    else citySearch tail rest

/-- Embedding of Python `str.strip()` on whitespace. -/
def strip (l : List Char) : List Char :=
  ((l.dropWhile Char.isWhitespace).reverse.dropWhile Char.isWhitespace).reverse

/-- Embedding of `extract_city_from_address` (scraper.py lines 160-172):
empty input yields `""`; otherwise pattern 1 (`",\s*([A-Za-z\s]+),\s*CA"`)
is searched first and pattern 2 (`",\s*([A-Za-z\s]+)\s+CA"`) second, the
captured group being stripped of surrounding whitespace; no match yields
`""`. -/
def extract_city_from_address (address : List Char) : List Char :=
  if address.isEmpty then []
  else
    match citySearch cityTail1 address with
    | some g => strip g
    | none =>
      match citySearch cityTail2 address with
      | some g => strip g
      | none => []

/-- Regex word characters `[A-Za-z0-9_]`, used by the `\b` boundaries of the
ZIP pattern. -/
def isWordChar (c : Char) : Bool := c.isAlpha || c.isDigit || c = '_'

/-- Attempt the ZIP pattern `\d{5}(?:-\d{4})?\b` at one position (the leading
`\b` is checked by the caller): five digits, optionally extended by `-` and
four digits when the trailing boundary allows it, preferring the long form
as the greedy optional group does. -/
def zipAt (l : List Char) : Option (List Char) :=
  if (l.take 5).length = 5 && (l.take 5).all Char.isDigit then
    match l.drop 5 with
    | [] => some (l.take 5)
    | '-' :: rest =>
      if (rest.take 4).length = 4 && (rest.take 4).all Char.isDigit then
        match rest.drop 4 with
        | [] => some (l.take 5 ++ '-' :: rest.take 4)
        | c :: _ =>
          if isWordChar c then some (l.take 5)
          else some (l.take 5 ++ '-' :: rest.take 4)
      else some (l.take 5)
    | c :: _ => if isWordChar c then none else some (l.take 5)
  else none

/-- Leftmost-match scan of the ZIP pattern, tracking the previous character
for the leading `\b` boundary. -/
def zipScan : Option Char → List Char → Option (List Char)
  | _, [] => none
  | prev, c :: cs =>
    if (match prev with | none => true | some p => !isWordChar p) then
      match zipAt (c :: cs) with
      | some z => some z
      | none => zipScan (some c) cs
    else zipScan (some c) cs

/-- Embedding of `extract_zip` (scraper.py lines 175-177): first match of
`r"\b(\d{5}(?:-\d{4})?)\b"`, or `""` when there is none. -/
def extract_zip (address : List Char) : List Char :=
  (zipScan none address).getD []

/-- Local-part characters `[a-zA-Z0-9._%+-]` of the email pattern. -/
def isLocalChar (c : Char) : Bool :=
  c.isAlpha || c.isDigit || c = '.' || c = '_' || c = '%' || c = '+' || c = '-'

/-- Domain characters `[a-zA-Z0-9.-]` of the email pattern. -/
def isDomainChar (c : Char) : Bool :=
  c.isAlpha || c.isDigit || c = '.' || c = '-'

/-- Backtracking split of the maximal domain run for `[a-zA-Z0-9.-]+\.[a-zA-Z]{2,}`:
the rightmost `.` that is followed by at least two letters, returning the
domain prefix before the dot, the greedy letter run after it, and the
remainder of the run.  The rightmost split is the one a greedy `+` reaches
first when backtracking. -/
def findLastDot : List Char → Option (List Char × List Char × List Char)
  | [] => none
  | c :: cs =>
    match findLastDot cs with
    | some (u, t, r) => some (c :: u, t, r)
    | none =>
      if c = '.' then
        let t := cs.takeWhile Char.isAlpha
        if 2 ≤ t.length then some ([], t, cs.dropWhile Char.isAlpha) else none
      else none

/-- Fuelled scanner for `re.findall(r"[a-zA-Z0-9._%+-]+@[a-zA-Z0-9.-]+\.[a-zA-Z]{2,}", s)`:
at each position, a maximal local-part run followed by `@` and a domain with
a valid TLD split yields a match, and scanning resumes after the match;
otherwise scanning advances one character.  The fuel is the input length,
which every recursive call strictly decreases below. -/
def findEmailsAux : Nat → List Char → List (List Char)
  | 0, _ => []
  | _, [] => []
  | fuel + 1, c :: cs =>
    if isLocalChar c then
      match (c :: cs).dropWhile isLocalChar with
      | '@' :: rest2 =>
        match findLastDot (rest2.takeWhile isDomainChar) with
        | some (u, t, r) =>
          if u.isEmpty then findEmailsAux fuel cs
          else
            ((c :: cs).takeWhile isLocalChar ++ '@' :: (u ++ '.' :: t)) ::
              findEmailsAux fuel (r ++ rest2.dropWhile isDomainChar)
        | none => findEmailsAux fuel cs
      | _ => findEmailsAux fuel cs
    else findEmailsAux fuel cs

/-- All email-syntax matches of a text, in scanning order. -/
def findEmails (l : List Char) : List (List Char) := findEmailsAux l.length l

/-- The fixed junk denylist of `extract_emails` (enrich_sf.py lines 42-47). -/
def JUNK : List (List Char) :=
  [chars "example.com", chars "sentry", chars "webpack", chars "wixpress",
   chars "wix.com", chars "squarespace", chars "wordpress", chars "google.com",
   chars "schema.org", chars "w3.org", chars "sentry.io", chars "cloudflare",
   chars "jquery", chars "bootstrap", chars "placeholder", chars "yourdomain",
   chars "email.com", chars "domain.com", chars "test.com", chars "noreply",
   chars "no-reply", chars "yoursite", chars "change.me", chars "company.com",
   chars "sample.com", chars ".png", chars ".jpg", chars ".gif", chars ".svg"]

/-- The filter of `extract_emails` (enrich_sf.py lines 48-52): keep a match
when no junk entry occurs in its lower-cased form and its length is below
80 (`len(em) < 80`). -/
def keepEmail (em : List Char) : Bool :=
  !(JUNK.any (fun j => isSubOf j (em.map Char.toLower))) && em.length < 80

/-- The dedup loop of `extract_emails` (enrich_sf.py lines 53-59): keep the
first occurrence of each case-insensitive form, tracking the `seen` set of
lower-cased emails. -/
def dedupLowerAux (seen : List (List Char)) : List (List Char) → List (List Char)
  | [] => []
  | em :: rest =>
    if em.map Char.toLower ∈ seen then dedupLowerAux seen rest
    else em :: dedupLowerAux (em.map Char.toLower :: seen) rest

/-- Embedding of `extract_emails` (enrich_sf.py lines 39-60): raw regex
matches, then the junk/length filter, then case-insensitive order-preserving
deduplication. -/
def extract_emails (html : List Char) : List (List Char) :=
  dedupLowerAux [] ((findEmails html).filter keepEmail)

/-!
Website enrichment (scraper.py lines 695-749).  A network fetch is external:
the `oracle` maps the index of each fetch (in fetch order) to `none` for a
failed fetch (exception or non-200 status) or to the retrieved page.
-/

/-- The externally observable content of one successfully fetched page:
the response text, and the content of the `<meta name="description">` tag
when the parsed page has one. -/
structure Page where
  text : List Char := []
  metaDesc : Option (List Char) := none
deriving DecidableEq, Repr

/-- Eligibility test of the enrichment loop (scraper.py line 707):
`company.website and company.website.startswith("http")`. -/
def eligible (r : InsuranceCompany) : Bool :=
  (chars "http").isPrefixOf r.website

/-- The short junk filter of the enrichment email scan (scraper.py line 730). -/
def enrichJunk : List (List Char) :=
  [chars "example.com", chars "sentry", chars "webpack", chars "wixpress"]

/-- The email chosen from a fetched page body (scraper.py lines 724-732):
the first regex match whose lower-cased form contains no junk entry. -/
def pickEmail (text : List Char) : Option (List Char) :=
  (findEmails text).find?
    (fun em => !(enrichJunk.any (fun j => isSubOf j (em.map Char.toLower))))

/-- The in-place mutation of one record from one successfully fetched page
(scraper.py lines 722-738): fill `email` from the page body only when empty,
and fill `description` from the meta description truncated to 500 characters
only when empty. -/
def applyPage (r : InsuranceCompany) (pg : Page) : InsuranceCompany :=
  let r1 :=
    if r.email.isEmpty then
      match pickEmail pg.text with
      | some em => { r with email := em }
      | none => r
    else r
  if r1.description.isEmpty then
    match pg.metaDesc with
    | some d => { r1 with description := d.take 500 }
    | none => r1
  else r1

/-- The enrichment loop (scraper.py lines 706-747): records are visited in
order; ineligible records are skipped; when 200 fetches have succeeded the
loop breaks at the next eligible record, returning the rest untouched;
otherwise one fetch is made (counted in the second component), and only a
successful fetch mutates the record and counts toward the cap. -/
def enrichGo (oracle : Nat → Option Page) :
    List InsuranceCompany → Nat → Nat → List InsuranceCompany × Nat
  | [], _, attempts => ([], attempts)
  | c :: cs, enriched, attempts =>
    if eligible c then
      if 200 ≤ enriched then (c :: cs, attempts)
      else
        match oracle attempts with
        | none =>
          let p := enrichGo oracle cs enriched (attempts + 1)
          (c :: p.1, p.2)
        | some pg =>
          let p := enrichGo oracle cs (enriched + 1) (attempts + 1)
          (applyPage c pg :: p.1, p.2)
    else
      let p := enrichGo oracle cs enriched attempts
      (c :: p.1, p.2)

/-- Embedding of `enrich_from_websites` (scraper.py lines 695-749), returning
the mutated record list together with the number of network fetches made. -/
def enrich_from_websites (oracle : Nat → Option Page) (companies : List InsuranceCompany) :
    List InsuranceCompany × Nat :=
  enrichGo oracle companies 0 0

/-- The per-record guarantee of the enrichment pass: at most `email` and
`description` change, each only when previously empty, and any description
written comes from the meta description of a fetched page truncated to 500
characters. -/
def EnrichRel (oracle : Nat → Option Page) (r r2 : InsuranceCompany) : Prop :=
  r2.name = r.name ∧ r2.address = r.address ∧ r2.city = r.city ∧ r2.state = r.state ∧
  r2.zip_code = r.zip_code ∧ r2.phone = r.phone ∧ r2.website = r.website ∧
  r2.rating = r.rating ∧ r2.review_count = r.review_count ∧
  r2.categories = r.categories ∧ r2.source = r.source ∧ r2.source_url = r.source_url ∧
  (r.email.isEmpty = false → r2.email = r.email) ∧
  (r.description.isEmpty = false → r2.description = r.description) ∧
  (r2.description = r.description ∨
    ∃ k pg d, oracle k = some pg ∧ pg.metaDesc = some d ∧
      r2.description = d.take 500)

/-!
Contact-page fallback of `scrape_website_for_email` (enrich_sf.py lines
63-93).  Here fetches are keyed by URL: the `fetch` oracle returns `none`
for a failed fetch (exception or non-200 status) and otherwise the final
URL after redirects together with the response text.
-/

/-- One fetched response: the final URL after redirects (`resp.url`) and the
response text. -/
structure Fetched where
  finalUrl : List Char
  text : List Char
deriving DecidableEq, Repr

/-- `f"{parsed.scheme}://{parsed.netloc}"` of `urlparse` on the absolute URLs
produced by the HTTP client: the scheme before `://` and the host up to the
next `/`, `?` or `#`. -/
def urlBase (u : List Char) : List Char :=
  match u.dropWhile (fun c => !(c = ':')) with
  | ':' :: '/' :: '/' :: r =>
    u.takeWhile (fun c => !(c = ':')) ++ ':' :: '/' :: '/' ::
      r.takeWhile (fun c => !(c = '/' || c = '?' || c = '#'))
  | _ => ':' :: '/' :: '/' :: []

/-- The fixed contact-page path suffixes (enrich_sf.py line 80). -/
def CONTACT_SUFFIXES : List (List Char) :=
  [chars "/contact", chars "/contact-us", chars "/about",
   chars "/about-us", chars "/contactus"]

/-- The emails extracted from one URL: empty on a failed fetch, otherwise
`extract_emails` over the response text. -/
def fetchEmailsAt (fetch : List Char → Option Fetched) (url : List Char) : List (List Char) :=
  match fetch url with
  | none => []
  | some f => extract_emails f.text

/-- The suffix loop of `scrape_website_for_email` (enrich_sf.py lines 80-88):
try each path suffix against the base URL in order and return the first
extracted email of the first path that yields any, or `""` when none does. -/
def tryContactPaths (fetch : List Char → Option Fetched) (base : List Char) :
    List (List Char) → List Char
  | [] => []
  | s :: ss =>
    match fetchEmailsAt fetch (base ++ s) with
    | [] => tryContactPaths fetch base ss
    | e :: _ => e

/-- Embedding of `scrape_website_for_email` (enrich_sf.py lines 63-93):
reject unusable websites, fetch the main page, return its first extracted
email when there is one, and otherwise fall back to the contact-page paths
against the base of the final URL. -/
def scrape_website_for_email (fetch : List Char → Option Fetched) (website : List Char) :
    List Char :=
  if !(chars "http").isPrefixOf website then []
  else
    match fetch website with
    | none => []
    | some f =>
      match extract_emails f.text with
      | e :: _ => e
      | [] => tryContactPaths fetch (urlBase f.finalUrl) CONTACT_SUFFIXES

/-!
Concrete inputs used by witnesses and counterexamples.
-/

/-- First raw record of the end-to-end scenario. -/
def acme1 : InsuranceCompany :=
  { name := chars "Acme Insurance", city := chars "Oakland",
    source := chars "A", phone := chars "555-1111" }

/-- Second raw record of the end-to-end scenario. -/
def acme2 : InsuranceCompany :=
  { name := chars "ACME INSURANCE", city := chars "Oakland",
    source := chars "B", website := chars "http://acme.test" }

/-- The merged record the two scenario records collapse into. -/
def acmeMerged : InsuranceCompany :=
  { name := chars "Acme Insurance", city := chars "Oakland",
    source := chars "A, B", phone := chars "555-1111",
    website := chars "http://acme.test" }

/-- A record whose single source label strictly contains another label. -/
def gmapsRec : InsuranceCompany :=
  { name := chars "X", city := chars "Oakland", source := chars "Google Maps" }

/-- A same-key record whose source label is a proper substring of the
retained record's label without being one of its comma-joined entries. -/
def mapsRec : InsuranceCompany :=
  { name := chars "X", city := chars "Oakland", source := chars "Maps" }

/-- An enrichment-eligible record. -/
def capCompany : InsuranceCompany :=
  { name := chars "r", website := chars "http://cap.test" }

/-- An oracle on which every fetch fails. -/
def failOracle : Nat → Option Page := fun _ => none

/-- An oracle on which every fetch succeeds (with an empty page). -/
def okOracle : Nat → Option Page := fun _ => some {}

/-- A syntactically valid, junk-free email of exactly 80 characters. -/
def email80 : List Char := List.replicate 75 'a' ++ chars "@b.co"

/-- The website used by the contact-page fallback witness. -/
def site7 : List Char := chars "http://h"

/-- A concrete fetch oracle: the main page carries no email, the `/contact`
page carries one. -/
def fetch7 : List Char → Option Fetched := fun u =>
  if u = chars "http://h" then some { finalUrl := chars "http://h", text := chars "hello" }
  else if u = chars "http://h/contact" then
    some { finalUrl := chars "http://h/contact", text := chars "write to x@y.co now" }
  else none

/-- The fetched main page of the contact-page fallback witness. -/
def f7 : Fetched := { finalUrl := chars "http://h", text := chars "hello" }

/-!
### Properties of the dedup merge step
-/

/-- Each mergeable field of a merged record is the retained value unless that
value is empty. -/
theorem mfield_mergeInto (f : MField) (e c : InsuranceCompany) :
    mfield f (mergeInto e c) =
      if (mfield f e).isEmpty then mfield f c else mfield f e := by
  cases f <;> rfl

/-- Merging never changes the retained record's name. -/
theorem mergeInto_name (e c : InsuranceCompany) : (mergeInto e c).name = e.name := rfl

/-- Merging never changes the retained record's city. -/
theorem mergeInto_city (e c : InsuranceCompany) : (mergeInto e c).city = e.city := rfl

/-- Merging never changes the retained record's state. -/
theorem mergeInto_state (e c : InsuranceCompany) : (mergeInto e c).state = e.state := rfl

/-- Merging never changes the retained record's source URL. -/
theorem mergeInto_source_url (e c : InsuranceCompany) :
    (mergeInto e c).source_url = e.source_url := rfl

/-- Merging accumulates the source labels. -/
theorem mergeInto_source (e c : InsuranceCompany) :
    (mergeInto e c).source = appendSource e.source c.source := rfl

/-- Merging preserves the identity key of the retained record. -/
theorem dedup_key_mergeInto (e c : InsuranceCompany) :
    dedup_key (mergeInto e c) = dedup_key e := rfl

/-- How one dedup iteration changes the record retained under each key. -/
theorem findKey_mergeFirst (acc : List InsuranceCompany) (c : InsuranceCompany)
    (k : List Char) :
    findKey (mergeFirst acc c) k =
      if dedup_key c = k then
        match findKey acc k with
        | some a => some (mergeInto a c)
        | none => some c
      else findKey acc k := by
  induction acc with
  | nil => by_cases h : dedup_key c = k <;> simp [mergeFirst, findKey, h]
  | cons r rs ih =>
    by_cases hrc : dedup_key r = dedup_key c
    · by_cases hk : dedup_key c = k
      · simp [mergeFirst, hrc, findKey, dedup_key_mergeInto, hk, hrc.trans hk]
      · have hrk : ¬ dedup_key r = k := fun h => hk (hrc ▸ h)
        simp [mergeFirst, hrc, findKey, dedup_key_mergeInto, hk, hrk]
    · by_cases hrk : dedup_key r = k
      · have hk : ¬ dedup_key c = k := fun h => hrc (hrk.trans h.symm)
        have hk2 : ¬ k = dedup_key c := fun h => hk h.symm
        simp [mergeFirst, hrc, findKey, hrk, hk, hk2]
      · simp [mergeFirst, hrc, findKey, hrk, ih]

/-- Folding a group into a record starts by merging the first group member. -/
theorem mergeGroup_cons (a c : InsuranceCompany) (l : List InsuranceCompany) :
    mergeGroup a (c :: l) = mergeGroup (mergeInto a c) l := rfl

/-- A key already retained before the fold accumulates exactly its group. -/
theorem foldl_findKey_some (l : List InsuranceCompany) :
    ∀ (acc : List InsuranceCompany) (k : List Char) (a : InsuranceCompany),
      findKey acc k = some a →
      findKey (l.foldl mergeFirst acc) k = some (mergeGroup a (keyGroup l k)) := by
  induction l with
  | nil => intro acc k a ha; simpa [keyGroup, mergeGroup] using ha
  | cons c cs ih =>
    intro acc k a ha
    rw [List.foldl_cons]
    by_cases hk : dedup_key c = k
    · have h1 : findKey (mergeFirst acc c) k = some (mergeInto a c) := by
        rw [findKey_mergeFirst, if_pos hk, ha]
      have h2 := ih (mergeFirst acc c) k (mergeInto a c) h1
      have hfil : keyGroup (c :: cs) k = c :: keyGroup cs k := by
        simp [keyGroup, List.filter_cons, keyIs, hk]
      rw [h2, hfil, mergeGroup_cons]
    · have h1 : findKey (mergeFirst acc c) k = some a := by
        rw [findKey_mergeFirst, if_neg hk, ha]
      have hfil : keyGroup (c :: cs) k = keyGroup cs k := by
        simp [keyGroup, List.filter_cons, keyIs, hk]
      rw [ih (mergeFirst acc c) k a h1, hfil]

/-- A key not retained before the fold ends up retaining its folded group. -/
theorem foldl_findKey_none (l : List InsuranceCompany) :
    ∀ (acc : List InsuranceCompany) (k : List Char),
      findKey acc k = none →
      findKey (l.foldl mergeFirst acc) k = groupResult (keyGroup l k) := by
  induction l with
  | nil => intro acc k ha; simpa [keyGroup, groupResult] using ha
  | cons c cs ih =>
    intro acc k ha
    rw [List.foldl_cons]
    by_cases hk : dedup_key c = k
    · have h1 : findKey (mergeFirst acc c) k = some c := by
        rw [findKey_mergeFirst, if_pos hk, ha]
      have hfil : keyGroup (c :: cs) k = c :: keyGroup cs k := by
        simp [keyGroup, List.filter_cons, keyIs, hk]
      rw [foldl_findKey_some cs (mergeFirst acc c) k c h1, hfil, groupResult]
    · have h1 : findKey (mergeFirst acc c) k = none := by
        rw [findKey_mergeFirst, if_neg hk, ha]
      have hfil : keyGroup (c :: cs) k = keyGroup cs k := by
        simp [keyGroup, List.filter_cons, keyIs, hk]
      rw [ih (mergeFirst acc c) k h1, hfil]

/-- The record `deduplicate` retains under key `k` is the fold of the dedup
group of `k`. -/
theorem deduplicate_findKey (l : List InsuranceCompany) (k : List Char) :
    findKey (deduplicate l) k = groupResult (keyGroup l k) :=
  foldl_findKey_none l [] k rfl

/-- A record with a fresh key is appended unmodified. -/
theorem mergeFirst_of_not_mem (acc : List InsuranceCompany) (c : InsuranceCompany)
    (h : dedup_key c ∉ acc.map dedup_key) : mergeFirst acc c = acc ++ [c] := by
  induction acc with
  | nil => rfl
  | cons r rs ih =>
    simp only [List.map_cons, List.mem_cons] at h
    push_neg at h
    have hne : ¬ dedup_key r = dedup_key c := fun hh => h.1 hh.symm
    simp [mergeFirst, hne, ih h.2]

/-- How one dedup iteration changes the retained key list. -/
theorem map_key_mergeFirst (acc : List InsuranceCompany) (c : InsuranceCompany) :
    (mergeFirst acc c).map dedup_key =
      if dedup_key c ∈ acc.map dedup_key then acc.map dedup_key
      else acc.map dedup_key ++ [dedup_key c] := by
  induction acc with
  | nil => simp [mergeFirst]
  | cons r rs ih =>
    by_cases hrc : dedup_key r = dedup_key c
    · simp [mergeFirst, hrc, dedup_key_mergeInto]
    · have : ¬ dedup_key c = dedup_key r := fun h => hrc h.symm
      by_cases hm : dedup_key c ∈ rs.map dedup_key <;>
        simp [mergeFirst, hrc, ih, hm, this]

/-- The retained list keeps pairwise distinct keys through the fold. -/
theorem nodup_foldl_mergeFirst (l : List InsuranceCompany) :
    ∀ acc : List InsuranceCompany, (acc.map dedup_key).Nodup →
      ((l.foldl mergeFirst acc).map dedup_key).Nodup := by
  induction l with
  | nil => intro acc h; simpa using h
  | cons c cs ih =>
    intro acc h
    rw [List.foldl_cons]
    refine ih (mergeFirst acc c) ?_
    rw [map_key_mergeFirst]
    by_cases hm : dedup_key c ∈ acc.map dedup_key
    · simpa [hm] using h
    · simp [hm, List.nodup_append, h]

/-- The deduplicated list has pairwise distinct identity keys. -/
theorem deduplicate_nodup (l : List InsuranceCompany) :
    ((deduplicate l).map dedup_key).Nodup :=
  nodup_foldl_mergeFirst l [] (by simp)

/-- On an input whose keys are already pairwise distinct, the dedup fold is
the identity (every record is inserted, none merged). -/
theorem foldl_mergeFirst_of_nodup (l : List InsuranceCompany) :
    ∀ acc : List InsuranceCompany, (((acc ++ l).map dedup_key)).Nodup →
      l.foldl mergeFirst acc = acc ++ l := by
  induction l with
  | nil => intro acc _; simp
  | cons c cs ih =>
    intro acc h
    have hnotmem : dedup_key c ∉ acc.map dedup_key := by
      intro hm
      rw [List.map_append, List.nodup_append] at h
      exact h.2.2 hm (by simp)
    rw [List.foldl_cons, mergeFirst_of_not_mem acc c hnotmem, ih (acc ++ [c]) (by simpa using h)]
    simp

/-- In a list with pairwise distinct keys, each member is the record found
under its own key. -/
theorem findKey_of_mem (m : List InsuranceCompany) (hnd : (m.map dedup_key).Nodup)
    (r : InsuranceCompany) (hr : r ∈ m) : findKey m (dedup_key r) = some r := by
  induction m with
  | nil => cases hr
  | cons x xs ih =>
    rcases List.mem_cons.mp hr with h | h
    · subst h; simp [findKey]
    · have hx : ¬ dedup_key x = dedup_key r := by
        intro he
        have : dedup_key r ∈ xs.map dedup_key := List.mem_map_of_mem dedup_key h
        simp only [List.map_cons, List.nodup_cons] at hnd
        exact hnd.1 (he ▸ this)
      have hnd2 : (xs.map dedup_key).Nodup := by
        simp only [List.map_cons, List.nodup_cons] at hnd
        exact hnd.2
      simp [findKey, hx, ih hnd2 h]

/-- The first record of a list with key `k` is the head of the group of `k`. -/
theorem findKey_eq_group_head (l : List InsuranceCompany) (k : List Char) :
    findKey l k = (keyGroup l k).head? := by
  induction l with
  | nil => rfl
  | cons c cs ih =>
    by_cases hk : dedup_key c = k <;>
      simp [findKey, keyGroup, List.filter_cons, keyIs, hk, ih]

/-- Field values of a folded group: the first non-empty value wins. -/
theorem mergeGroup_mfield (f : MField) (l : List InsuranceCompany) :
    ∀ a, mfield f (mergeGroup a l) = firstNonEmpty (mfield f a :: l.map (mfield f)) := by
  induction l with
  | nil =>
    intro a
    by_cases h : (mfield f a).isEmpty
    · simp [mergeGroup, firstNonEmpty, h, List.isEmpty_iff.mp h]
    · simp [mergeGroup, firstNonEmpty, h]
  | cons c cs ih =>
    intro a
    rw [mergeGroup_cons, ih (mergeInto a c)]
    by_cases h : (mfield f a).isEmpty
    · simp [firstNonEmpty, mfield_mergeInto, h]
    · simp [firstNonEmpty, mfield_mergeInto, h]

/-- Folding a group never changes the first record's name, city, state or
source URL. -/
theorem mergeGroup_frame (l : List InsuranceCompany) :
    ∀ a, (mergeGroup a l).name = a.name ∧ (mergeGroup a l).city = a.city ∧
      (mergeGroup a l).state = a.state ∧ (mergeGroup a l).source_url = a.source_url := by
  induction l with
  | nil => intro a; exact ⟨rfl, rfl, rfl, rfl⟩
  | cons c cs ih =>
    intro a
    rw [mergeGroup_cons]
    exact ⟨(ih (mergeInto a c)).1, (ih (mergeInto a c)).2.1,
      (ih (mergeInto a c)).2.2.1, (ih (mergeInto a c)).2.2.2⟩

/-- Folding a group accumulates the member source labels in order. -/
theorem mergeGroup_source (l : List InsuranceCompany) :
    ∀ a, (mergeGroup a l).source = srcFold a.source (l.map InsuranceCompany.source) := by
  induction l with
  | nil => intro a; rfl
  | cons c cs ih =>
    intro a
    rw [mergeGroup_cons, ih (mergeInto a c)]
    rfl

/-- Folding a group preserves the identity key. -/
theorem dedup_key_mergeGroup (l : List InsuranceCompany) :
    ∀ a, dedup_key (mergeGroup a l) = dedup_key a := by
  induction l with
  | nil => intro a; rfl
  | cons c cs ih => intro a; rw [mergeGroup_cons, ih (mergeInto a c), dedup_key_mergeInto]

/-- When some value of the list is non-empty, so is the first non-empty
value. -/
theorem firstNonEmpty_ne_nil (vs : List (List Char))
    (h : ∃ v ∈ vs, v.isEmpty = false) : (firstNonEmpty vs).isEmpty = false := by
  induction vs with
  | nil => simp at h
  | cons v vs ih =>
    rcases h with ⟨w, hw, hne⟩
    rcases List.mem_cons.mp hw with h | h
    · subst h
      by_cases hv : w.isEmpty
      · rw [hv] at hne; cases hne
      · simp [firstNonEmpty, hv]
    · by_cases hv : v.isEmpty
      · simpa [firstNonEmpty, hv] using ih ⟨w, h, hne⟩
      · simp [firstNonEmpty, hv]

/-- Every record of a deduplicated list is the fold of its own input group,
whose head is the first input record with that key. -/
theorem deduplicate_mem_structure (l : List InsuranceCompany) (r : InsuranceCompany)
    (h : r ∈ deduplicate l) :
    ∃ g gs, keyGroup l (dedup_key r) = g :: gs ∧ r = mergeGroup g gs ∧
      findKey l (dedup_key r) = some g := by
  have hfind : findKey (deduplicate l) (dedup_key r) = some r :=
    findKey_of_mem (deduplicate l) (deduplicate_nodup l) r h
  rw [deduplicate_findKey] at hfind
  cases hg : keyGroup l (dedup_key r) with
  | nil => rw [hg] at hfind; cases hfind
  | cons g gs =>
    rw [hg] at hfind
    refine ⟨g, gs, rfl, ?_, ?_⟩
    · cases hfind; rfl
    · rw [findKey_eq_group_head, hg]; rfl

/-!
### Claim theorems: identity key and deduplication
-/

/-- C1: the identity key is a pure, deterministic function of name and city
only: updating every other field leaves the key unchanged, and two records
whose name and city agree after case-folding and dropping non-alphanumeric
characters have equal keys. -/
theorem dedup_key_pure :
    (∀ (r : InsuranceCompany) (address phone website email rating review_count
        categories description state zip_code source source_url : List Char),
      dedup_key
        { r with
          address := address, phone := phone, website := website, email := email,
          rating := rating, review_count := review_count, categories := categories,
          description := description, state := state, zip_code := zip_code,
          source := source, source_url := source_url } = dedup_key r) ∧
    (∀ r1 r2 : InsuranceCompany,
      (r1.name.map Char.toLower).filter normChar =
        (r2.name.map Char.toLower).filter normChar →
      (r1.city.map Char.toLower).filter normChar =
        (r2.city.map Char.toLower).filter normChar →
      dedup_key r1 = dedup_key r2) := by
  constructor
  · intro r address phone website email rating review_count categories
      description state zip_code source source_url
    rfl
  · intro r1 r2 h1 h2
    unfold dedup_key normalizeField
    rw [h1, h2]

/-- C1 witness: the two scenario records agree up to case on name and city
and the theorem yields equal keys for them. -/
theorem dedup_key_pure_witness :
    ((acme1.name.map Char.toLower).filter normChar =
      (acme2.name.map Char.toLower).filter normChar) ∧
    ((acme1.city.map Char.toLower).filter normChar =
      (acme2.city.map Char.toLower).filter normChar) ∧
    dedup_key acme1 = dedup_key acme2 :=
  ⟨by decide, by decide, dedup_key_pure.2 acme1 acme2 (by decide) (by decide)⟩

/-- C2: deduplication is idempotent — running the merge on its own output is
a no-op, record for record and field for field. -/
theorem deduplicate_idempotent (l : List InsuranceCompany) :
    deduplicate (deduplicate l) = deduplicate l := by
  have h2 := foldl_mergeFirst_of_nodup (deduplicate l) []
    (by simpa using deduplicate_nodup l)
  simpa [deduplicate] using h2

/-- C3: for every input sequence, identity-key group and mergeable field, the
deduplicated record's value is the first non-empty value of the group in
input order, and is non-empty whenever some group member supplies a non-empty
value. -/
theorem deduplicate_first_nonempty (l : List InsuranceCompany) (f : MField)
    (r : InsuranceCompany) (h : r ∈ deduplicate l) :
    mfield f r = firstNonEmpty ((keyGroup l (dedup_key r)).map (mfield f)) ∧
    ((∃ x ∈ keyGroup l (dedup_key r), (mfield f x).isEmpty = false) →
      (mfield f r).isEmpty = false) := by
  obtain ⟨g, gs, hg, hr, -⟩ := deduplicate_mem_structure l r h
  have h1 : mfield f r = firstNonEmpty ((keyGroup l (dedup_key r)).map (mfield f)) := by
    rw [hg, hr, List.map_cons]
    exact mergeGroup_mfield f gs g
  refine ⟨h1, ?_⟩
  intro hex
  rw [h1]
  apply firstNonEmpty_ne_nil
  obtain ⟨x, hx, hxe⟩ := hex
  exact ⟨mfield f x, List.mem_map_of_mem (mfield f) hx, hxe⟩

/-- C3 witness: the theorem applied to the merged scenario record and the
address field. -/
theorem deduplicate_first_nonempty_witness :
    acmeMerged ∈ deduplicate [acme1, acme2] ∧
    (mfield MField.address acmeMerged =
      firstNonEmpty ((keyGroup [acme1, acme2] (dedup_key acmeMerged)).map
        (mfield MField.address)) ∧
    ((∃ x ∈ keyGroup [acme1, acme2] (dedup_key acmeMerged),
        (mfield MField.address x).isEmpty = false) →
      (mfield MField.address acmeMerged).isEmpty = false)) :=
  ⟨by decide, deduplicate_first_nonempty [acme1, acme2] MField.address acmeMerged (by decide)⟩

/-- C4 counterexample: the incoming label "Maps" differs from the single
retained source entry "Google Maps" — it is not one of the comma-joined
entries — yet deduplicate appends nothing, because the code tests substring
containment, not entry membership. -/
theorem dedup_source_entry_cex :
    deduplicate [gmapsRec, mapsRec] = [gmapsRec] ∧ mapsRec.source ≠ gmapsRec.source :=
  ⟨by decide, by decide⟩

/-- C4 amended: on every merge the incoming source label is appended to the
retained comma-joined source string unless it already occurs as a substring
of it (so the retained source is the substring-guarded fold of the group's
labels in input order), and the two scenario records merge into one record
with source "A, B", phone "555-1111" and website "http://acme.test". -/
theorem dedup_source_append (l : List InsuranceCompany) (r : InsuranceCompany)
    (h : r ∈ deduplicate l) :
    (∃ g gs, keyGroup l (dedup_key r) = g :: gs ∧ findKey l (dedup_key r) = some g ∧
      r.source = srcFold g.source (gs.map InsuranceCompany.source)) ∧
    deduplicate [acme1, acme2] = [acmeMerged] := by
  refine ⟨?_, by decide⟩
  obtain ⟨g, gs, hg, hr, hfind⟩ := deduplicate_mem_structure l r h
  exact ⟨g, gs, hg, hfind, by rw [hr]; exact mergeGroup_source gs g⟩

/-- C4 witness: the theorem applied to the merged scenario record. -/
theorem dedup_source_append_witness :
    acmeMerged ∈ deduplicate [acme1, acme2] ∧
    ((∃ g gs, keyGroup [acme1, acme2] (dedup_key acmeMerged) = g :: gs ∧
        findKey [acme1, acme2] (dedup_key acmeMerged) = some g ∧
        acmeMerged.source = srcFold g.source (gs.map InsuranceCompany.source)) ∧
      deduplicate [acme1, acme2] = [acmeMerged]) :=
  ⟨by decide, dedup_source_append [acme1, acme2] acmeMerged (by decide)⟩

/-- C10: deduplication mutates only the nine mergeable fields and the source
field — name, city, state and source URL of every output record are exactly
those of the first input record seen with its identity key. -/
theorem deduplicate_frame_fields (l : List InsuranceCompany) (r : InsuranceCompany)
    (h : r ∈ deduplicate l) :
    ∃ r0, findKey l (dedup_key r) = some r0 ∧ r.name = r0.name ∧ r.city = r0.city ∧
      r.state = r0.state ∧ r.source_url = r0.source_url := by
  obtain ⟨g, gs, -, hr, hfind⟩ := deduplicate_mem_structure l r h
  obtain ⟨hn, hc, hs, hu⟩ := mergeGroup_frame gs g
  exact ⟨g, hfind, by rw [hr]; exact hn, by rw [hr]; exact hc,
    by rw [hr]; exact hs, by rw [hr]; exact hu⟩

/-- C10 witness: the theorem applied to the merged scenario record. -/
theorem deduplicate_frame_fields_witness :
    acmeMerged ∈ deduplicate [acme1, acme2] ∧
    (∃ r0, findKey [acme1, acme2] (dedup_key acmeMerged) = some r0 ∧
      acmeMerged.name = r0.name ∧ acmeMerged.city = r0.city ∧
      acmeMerged.state = r0.state ∧ acmeMerged.source_url = r0.source_url) :=
  ⟨by decide, deduplicate_frame_fields [acme1, acme2] acmeMerged (by decide)⟩

/-!
### Claim theorems: enrichment
-/

/-- One successfully fetched page mutates a record within `EnrichRel`. -/
theorem applyPage_rel (oracle : Nat → Option Page) (k : Nat) (pg : Page)
    (hk : oracle k = some pg) (r : InsuranceCompany) :
    EnrichRel oracle r (applyPage r pg) := by
  by_cases he : r.email.isEmpty <;>
  rcases hpe : pickEmail pg.text with - | em <;>
  rcases hm : pg.metaDesc with - | d <;>
  by_cases hd : r.description.isEmpty <;>
  simp [EnrichRel, applyPage, he, hpe, hm, hd] <;>
  exact Or.inr ⟨k, pg, hk, d, hm, rfl⟩

/-- `EnrichRel` is reflexive: an untouched record satisfies it. -/
theorem EnrichRel_refl (oracle : Nat → Option Page) (r : InsuranceCompany) :
    EnrichRel oracle r r :=
  ⟨rfl, rfl, rfl, rfl, rfl, rfl, rfl, rfl, rfl, rfl, rfl, rfl,
    fun _ => rfl, fun _ => rfl, Or.inl rfl⟩

/-- The enrichment loop relates every input record to its output record by
`EnrichRel`, for any counters. -/
theorem enrichGo_rel (oracle : Nat → Option Page) (l : List InsuranceCompany) :
    ∀ enr att, List.Forall₂ (EnrichRel oracle) l (enrichGo oracle l enr att).1 := by
  induction l with
  | nil => intro enr att; exact List.Forall₂.nil
  | cons c cs ih =>
    intro enr att
    by_cases hel : eligible c
    · by_cases hcap : 200 ≤ enr
      · have hout : (enrichGo oracle (c :: cs) enr att).1 = c :: cs := by
          simp [enrichGo, hel, hcap]
        rw [hout]
        exact List.forall₂_same.mpr (fun x _ => EnrichRel_refl oracle x)
      · cases ho : oracle att with
        | none =>
          have hout : (enrichGo oracle (c :: cs) enr att).1 =
              c :: (enrichGo oracle cs enr (att + 1)).1 := by
            simp [enrichGo, hel, hcap, ho]
          rw [hout]
          exact List.Forall₂.cons (EnrichRel_refl oracle c) (ih enr (att + 1))
        | some pg =>
          have hout : (enrichGo oracle (c :: cs) enr att).1 =
              applyPage c pg :: (enrichGo oracle cs (enr + 1) (att + 1)).1 := by
            simp [enrichGo, hel, hcap, ho]
          rw [hout]
          exact List.Forall₂.cons (applyPage_rel oracle att pg ho c)
            (ih (enr + 1) (att + 1))
    · have hout : (enrichGo oracle (c :: cs) enr att).1 =
          c :: (enrichGo oracle cs enr att).1 := by
        simp [enrichGo, hel]
      rw [hout]
      exact List.Forall₂.cons (EnrichRel_refl oracle c) (ih enr att)

/-- C6: for every record, enrichment mutates at most `email` and
`description`, each only when currently empty; every other field of every
record is unchanged, and any written description is a fetched page's meta
description truncated to at most 500 characters. -/
theorem enrich_frame (oracle : Nat → Option Page) (companies : List InsuranceCompany) :
    List.Forall₂ (EnrichRel oracle) companies (enrich_from_websites oracle companies).1 :=
  enrichGo_rel oracle companies 0 0

/-- C6 witness: the theorem applied to a concrete oracle and record list. -/
theorem enrich_frame_witness :
    List.Forall₂ (EnrichRel failOracle) [capCompany]
      (enrich_from_websites failOracle [capCompany]).1 :=
  enrich_frame failOracle [capCompany]

set_option maxRecDepth 10000 in
/-- C5 counterexample: with 201 eligible records (cap 200 < 201) and every
fetch failing, the loop makes 201 network fetches, because the cap counts
successful enrichments rather than fetches. -/
theorem enrich_cap_cex :
    (List.replicate 201 capCompany).countP eligible = 201 ∧
    (enrich_from_websites failOracle (List.replicate 201 capCompany)).2 = 201 :=
  ⟨by decide, by decide⟩

/-- The enrichment loop under an always-successful oracle: from any counter
state with remaining budget smaller than the number of eligible records, it
stops after exactly the remaining budget of fetches and returns the input
suffix from the first unprocessed record on unmodified. -/
theorem enrichGo_cap_spec (oracle : Nat → Option Page)
    (hsome : ∀ k, (oracle k).isSome) (l : List InsuranceCompany) :
    ∀ enr att : Nat, enr ≤ 200 → 200 - enr < l.countP eligible →
      ∃ l1 l2 out1,
        l = l1 ++ l2 ∧ (enrichGo oracle l enr att).1 = out1 ++ l2 ∧
        out1.length = l1.length ∧ l1.countP eligible = 200 - enr ∧
        (enrichGo oracle l enr att).2 = att + (200 - enr) ∧ l2 ≠ [] := by
  induction l with
  | nil => intro enr att hle hcount; simp at hcount
  | cons c cs ih =>
    intro enr att hle hcount
    by_cases hel : eligible c
    · by_cases hcap : 200 ≤ enr
      · have henr : enr = 200 := le_antisymm hle hcap
        refine ⟨[], c :: cs, [], rfl, ?_, rfl, ?_, ?_, by simp⟩
        · simp [enrichGo, hel, hcap]
        · simp [henr]
        · simp [enrichGo, hel, hcap, henr]
      · obtain ⟨pg, hpg⟩ := Option.isSome_iff_exists.mp (hsome att)
        have hcc : (c :: cs).countP eligible = cs.countP eligible + 1 := by
          simp [List.countP_cons, hel]
        obtain ⟨l1, l2, out1, heq, hout, hlen, hc1, hatt, hne⟩ :=
          ih (enr + 1) (att + 1) (by omega) (by omega)
        refine ⟨c :: l1, l2, applyPage c pg :: out1, by simp [heq], ?_,
          by simp [hlen], ?_, ?_, hne⟩
        · simp [enrichGo, hel, hcap, hpg, hout]
        · rw [List.countP_cons]
          simp [hel, hc1]
          omega
        · simp [enrichGo, hel, hcap, hpg, hatt]
          omega
    · have hcc : (c :: cs).countP eligible = cs.countP eligible := by
        simp [List.countP_cons, hel]
      obtain ⟨l1, l2, out1, heq, hout, hlen, hc1, hatt, hne⟩ :=
        ih enr att hle (by omega)
      refine ⟨c :: l1, l2, c :: out1, by simp [heq], ?_, by simp [hlen], ?_, ?_, hne⟩
      · simp [enrichGo, hel, hout]
      · rw [List.countP_cons]
        simp [hel, hc1]
      · simp [enrichGo, hel, hatt]

/-- C5 amended: with cap 200 and N > 200 eligible records, when every fetch
succeeds the enricher processes eligible records in input order, makes
exactly 200 network fetches, and returns the input suffix beginning at the
201st eligible record — which holds the remaining N − 200 eligible records —
completely unmodified; reaching the cap is a normal stopping condition (the
cap counts successful fetches, so failed fetches do not count toward it). -/
theorem enrich_cap_amended (oracle : Nat → Option Page)
    (hsome : ∀ k, (oracle k).isSome) (companies : List InsuranceCompany)
    (hN : 200 < companies.countP eligible) :
    ∃ l1 l2 out1,
      companies = l1 ++ l2 ∧
      (enrich_from_websites oracle companies).1 = out1 ++ l2 ∧
      out1.length = l1.length ∧ l1.countP eligible = 200 ∧
      l2.countP eligible = companies.countP eligible - 200 ∧
      (enrich_from_websites oracle companies).2 = 200 ∧ l2 ≠ [] := by
  obtain ⟨l1, l2, out1, heq, hout, hlen, hc1, hatt, hne⟩ :=
    enrichGo_cap_spec oracle hsome companies 0 0 (by omega) (by omega)
  have hcnt := congrArg (List.countP eligible) heq
  rw [List.countP_append] at hcnt
  exact ⟨l1, l2, out1, heq, hout, hlen, by simpa using hc1,
    by omega, by simpa using hatt, hne⟩

set_option maxRecDepth 10000 in
/-- C5 witness: the amended theorem applied to 201 eligible records and an
always-successful oracle. -/
theorem enrich_cap_amended_witness :
    (∀ k, (okOracle k).isSome) ∧
    200 < (List.replicate 201 capCompany).countP eligible ∧
    ∃ l1 l2 out1,
      List.replicate 201 capCompany = l1 ++ l2 ∧
      (enrich_from_websites okOracle (List.replicate 201 capCompany)).1 = out1 ++ l2 ∧
      out1.length = l1.length ∧ l1.countP eligible = 200 ∧
      l2.countP eligible = (List.replicate 201 capCompany).countP eligible - 200 ∧
      (enrich_from_websites okOracle (List.replicate 201 capCompany)).2 = 200 ∧
      l2 ≠ [] :=
  ⟨fun _ => rfl, by decide,
    enrich_cap_amended okOracle (fun _ => rfl) (List.replicate 201 capCompany) (by decide)⟩

/-!
### Claim theorems: contact-page fallback
-/

/-- The contact-path loop returns either the empty result with every path
yielding nothing, or the first email of the first path that yields one,
with all earlier paths yielding nothing. -/
theorem tryContactPaths_spec (fetch : List Char → Option Fetched) (base : List Char) :
    ∀ ss : List (List Char),
      (tryContactPaths fetch base ss = [] ∧
        ∀ s ∈ ss, fetchEmailsAt fetch (base ++ s) = []) ∨
      (∃ pre s post e rest, ss = pre ++ s :: post ∧
        (∀ p ∈ pre, fetchEmailsAt fetch (base ++ p) = []) ∧
        fetchEmailsAt fetch (base ++ s) = e :: rest ∧
        tryContactPaths fetch base ss = e) := by
  intro ss
  induction ss with
  | nil => left; exact ⟨rfl, by simp⟩
  | cons s0 ss ih =>
    cases hf : fetchEmailsAt fetch (base ++ s0) with
    | nil =>
      rcases ih with ⟨h1, h2⟩ | ⟨pre, s, post, e, rest, heq, hpre, hs, hres⟩
      · left
        refine ⟨by simp [tryContactPaths, hf, h1], ?_⟩
        intro s hsm
        rcases List.mem_cons.mp hsm with h | h
        · subst h; exact hf
        · exact h2 s h
      · right
        refine ⟨s0 :: pre, s, post, e, rest, by simp [heq], ?_, hs, ?_⟩
        · intro p hp
          rcases List.mem_cons.mp hp with h | h
          · subst h; exact hf
          · exact hpre p h
        · simp [tryContactPaths, hf, hres]
    | cons e rest =>
      right
      exact ⟨[], s0, ss, e, rest, rfl, by simp, hf, by simp [tryContactPaths, hf]⟩

/-- C7: when the main page fetch succeeds but its extracted email list is
empty, the enricher attempts the fixed contact-page path suffixes against the
base of the final URL in input order, stopping at the first path that yields
a non-empty extracted email and returning that path's first email (and
returns empty only when every path yields nothing). -/
theorem contact_fallback (fetch : List Char → Option Fetched) (website : List Char)
    (f : Fetched) (hw : (chars "http").isPrefixOf website)
    (hf : fetch website = some f) (hempty : extract_emails f.text = []) :
    (scrape_website_for_email fetch website = [] ∧
      ∀ s ∈ CONTACT_SUFFIXES, fetchEmailsAt fetch (urlBase f.finalUrl ++ s) = []) ∨
    (∃ pre s post e rest, CONTACT_SUFFIXES = pre ++ s :: post ∧
      (∀ p ∈ pre, fetchEmailsAt fetch (urlBase f.finalUrl ++ p) = []) ∧
      fetchEmailsAt fetch (urlBase f.finalUrl ++ s) = e :: rest ∧
      scrape_website_for_email fetch website = e) := by
  have hs : scrape_website_for_email fetch website =
      tryContactPaths fetch (urlBase f.finalUrl) CONTACT_SUFFIXES := by
    simp [scrape_website_for_email, hw, hf, hempty]
  rw [hs]
  exact tryContactPaths_spec fetch (urlBase f.finalUrl) CONTACT_SUFFIXES

/-- C7 witness: the theorem applied to a concrete fetch oracle whose main
page carries no email and whose /contact page carries one. -/
theorem contact_fallback_witness :
    ((chars "http").isPrefixOf site7 = true ∧ fetch7 site7 = some f7 ∧
      extract_emails f7.text = []) ∧
    ((scrape_website_for_email fetch7 site7 = [] ∧
      ∀ s ∈ CONTACT_SUFFIXES, fetchEmailsAt fetch7 (urlBase f7.finalUrl ++ s) = []) ∨
    (∃ pre s post e rest, CONTACT_SUFFIXES = pre ++ s :: post ∧
      (∀ p ∈ pre, fetchEmailsAt fetch7 (urlBase f7.finalUrl ++ p) = []) ∧
      fetchEmailsAt fetch7 (urlBase f7.finalUrl ++ s) = e :: rest ∧
      scrape_website_for_email fetch7 site7 = e)) :=
  ⟨⟨by decide, by decide, by decide⟩,
    contact_fallback fetch7 site7 f7 (by decide) (by decide) (by decide)⟩

/-!
### Claim theorems: email extraction
-/

/-- The dedup loop of extract_emails keeps an order-preserving sublist. -/
theorem dedupLowerAux_sublist (l : List (List Char)) :
    ∀ seen, (dedupLowerAux seen l).Sublist l := by
  induction l with
  | nil => intro seen; simp [dedupLowerAux]
  | cons em rest ih =>
    intro seen
    by_cases h : em.map Char.toLower ∈ seen
    · simp only [dedupLowerAux, if_pos h]
      exact List.Sublist.cons em (ih seen)
    · simp only [dedupLowerAux, if_neg h]
      exact List.Sublist.cons₂ em (ih (em.map Char.toLower :: seen))

/-- Nothing the dedup loop emits was already in the seen set. -/
theorem dedupLowerAux_not_seen (l : List (List Char)) :
    ∀ seen, ∀ e ∈ dedupLowerAux seen l, e.map Char.toLower ∉ seen := by
  induction l with
  | nil => intro seen e he; simp [dedupLowerAux] at he
  | cons em rest ih =>
    intro seen e he
    by_cases h : em.map Char.toLower ∈ seen
    · simp only [dedupLowerAux, if_pos h] at he
      exact ih seen e he
    · simp only [dedupLowerAux, if_neg h] at he
      rcases List.mem_cons.mp he with rfl | he2
      · exact h
      · intro hmem
        exact ih (em.map Char.toLower :: seen) e he2 (List.mem_cons_of_mem _ hmem)

/-- The dedup loop emits pairwise case-insensitively distinct entries. -/
theorem dedupLowerAux_pairwise (l : List (List Char)) :
    ∀ seen, (dedupLowerAux seen l).Pairwise
      (fun a b => a.map Char.toLower ≠ b.map Char.toLower) := by
  induction l with
  | nil => intro seen; simp [dedupLowerAux]
  | cons em rest ih =>
    intro seen
    by_cases h : em.map Char.toLower ∈ seen
    · simpa only [dedupLowerAux, if_pos h] using ih seen
    · simp only [dedupLowerAux, if_neg h]
      refine List.Pairwise.cons ?_ (ih (em.map Char.toLower :: seen))
      intro b hb hcontra
      exact dedupLowerAux_not_seen rest (em.map Char.toLower :: seen) b hb
        (hcontra ▸ List.mem_cons_self _ _)

/-- Every input to the dedup loop whose lower-cased form is not yet seen is
represented in the output by an entry with the same lower-cased form. -/
theorem dedupLowerAux_covers (l : List (List Char)) :
    ∀ seen, ∀ e ∈ l, e.map Char.toLower ∉ seen →
      ∃ e2 ∈ dedupLowerAux seen l, e2.map Char.toLower = e.map Char.toLower := by
  induction l with
  | nil => intro seen e he; simp at he
  | cons em rest ih =>
    intro seen e he hns
    by_cases h : em.map Char.toLower ∈ seen
    · rcases List.mem_cons.mp he with rfl | he2
      · exact absurd h hns
      · simpa only [dedupLowerAux, if_pos h] using ih seen e he2 hns
    · rcases List.mem_cons.mp he with rfl | he2
      · exact ⟨e, by simp [dedupLowerAux, h], rfl⟩
      · by_cases heq : e.map Char.toLower = em.map Char.toLower
        · exact ⟨em, by simp [dedupLowerAux, h], heq.symm⟩
        · have hns2 : e.map Char.toLower ∉ em.map Char.toLower :: seen := by
            intro hmem
            rcases List.mem_cons.mp hmem with h1 | h1
            · exact heq h1
            · exact hns h1
          obtain ⟨e2, he2m, hle⟩ := ih (em.map Char.toLower :: seen) e he2 hns2
          refine ⟨e2, ?_, hle⟩
          simp only [dedupLowerAux, if_neg h]
          exact List.mem_cons_of_mem _ he2m

/-- C8 amended: extract_emails returns the email-syntax matches that survive
the filter — whose lower-cased form contains no junk-denylist entry and whose
length is strictly below 80 characters (so a match of 80 or more characters
is dropped) — as an order-preserving sublist deduplicated case-insensitively:
every output entry is a surviving match, every surviving match shares its
lower-cased form with some output entry, no two output entries agree after
lower-casing, and the two concrete examples hold. -/
theorem extract_emails_spec (html : List Char) :
    (extract_emails html).Sublist ((findEmails html).filter keepEmail) ∧
    (∀ e ∈ extract_emails html, e ∈ findEmails html ∧ keepEmail e = true) ∧
    (∀ e ∈ findEmails html, keepEmail e = true →
      ∃ e2 ∈ extract_emails html, e2.map Char.toLower = e.map Char.toLower) ∧
    (extract_emails html).Pairwise
      (fun a b => a.map Char.toLower ≠ b.map Char.toLower) ∧
    extract_emails (chars "contact us at info@example.com or sales@realbiz.com") =
      [chars "sales@realbiz.com"] ∧
    extract_emails [] = [] := by
  refine ⟨dedupLowerAux_sublist _ [], ?_, ?_,
    dedupLowerAux_pairwise _ [], by decide, by decide⟩
  · intro e he
    have hmem := (dedupLowerAux_sublist ((findEmails html).filter keepEmail) []).subset he
    exact ⟨(List.mem_filter.mp hmem).1, (List.mem_filter.mp hmem).2⟩
  · intro e he hk
    exact dedupLowerAux_covers _ [] e (List.mem_filter.mpr ⟨he, hk⟩) (by simp)

/-- C8 witness: the theorem applied to a concrete text with two distinct
emails. -/
theorem extract_emails_spec_witness :
    (extract_emails (chars "x@y.cc a@b.cc")).Sublist
      ((findEmails (chars "x@y.cc a@b.cc")).filter keepEmail) ∧
    (∀ e ∈ extract_emails (chars "x@y.cc a@b.cc"),
      e ∈ findEmails (chars "x@y.cc a@b.cc") ∧ keepEmail e = true) ∧
    (∀ e ∈ findEmails (chars "x@y.cc a@b.cc"), keepEmail e = true →
      ∃ e2 ∈ extract_emails (chars "x@y.cc a@b.cc"),
        e2.map Char.toLower = e.map Char.toLower) ∧
    (extract_emails (chars "x@y.cc a@b.cc")).Pairwise
      (fun a b => a.map Char.toLower ≠ b.map Char.toLower) ∧
    extract_emails (chars "contact us at info@example.com or sales@realbiz.com") =
      [chars "sales@realbiz.com"] ∧
    extract_emails [] = [] :=
  extract_emails_spec (chars "x@y.cc a@b.cc")

/-- C8 counterexample: an 80-character junk-free email-syntax match does not
exceed 80 characters, yet extract_emails drops it — the code keeps only
matches of length strictly below 80. -/
theorem extract_emails_len80_cex :
    email80.length = 80 ∧ findEmails email80 = [email80] ∧
    (JUNK.all (fun j => !(isSubOf j (email80.map Char.toLower)))) = true ∧
    extract_emails email80 = [] :=
  ⟨by decide, by decide, by decide, by decide⟩

/-!
### Claim theorems: field extractor totality and well-formedness
-/

/-- A successful findSome? comes from some list element. -/
theorem findSome_exists {α β : Type} (f : α → Option β) (l : List α) (b : β)
    (h : l.findSome? f = some b) : ∃ a ∈ l, f a = some b := by
  induction l with
  | nil => cases h
  | cons x xs ih =>
    rw [List.findSome?_cons] at h
    cases hx : f x with
    | some v =>
      rw [hx] at h
      simp only [] at h
      exact ⟨x, List.mem_cons_self x xs, by rw [hx]; exact h⟩
    | none =>
      rw [hx] at h
      obtain ⟨a, ha, hfa⟩ := ih h
      exact ⟨a, List.mem_cons_of_mem x ha, hfa⟩

/-- The head the dropWhile scan stops at falsifies the predicate. -/
theorem head_dropWhile_false (p : Char → Bool) (l : List Char) :
    ∀ c cs, l.dropWhile p = c :: cs → p c = false := by
  induction l with
  | nil => intro c cs h; cases h
  | cons a as ih =>
    intro c cs h
    rw [List.dropWhile_cons] at h
    by_cases hp : p a = true
    · rw [if_pos hp] at h; exact ih c cs h
    · rw [if_neg hp] at h
      cases h
      simpa using hp

/-- Stripping only removes characters. -/
theorem mem_strip (l : List Char) : ∀ x ∈ strip l, x ∈ l := by
  intro x hx
  unfold strip at hx
  rw [List.mem_reverse] at hx
  have h1 : x ∈ (l.dropWhile Char.isWhitespace).reverse :=
    (List.dropWhile_suffix Char.isWhitespace).subset hx
  rw [List.mem_reverse] at h1
  exact (List.dropWhile_suffix Char.isWhitespace).subset h1

/-- The last character of a stripped string is not whitespace. -/
theorem strip_getLast_not_ws (l : List Char) (c : Char)
    (h : (strip l).getLast? = some c) : c.isWhitespace = false := by
  unfold strip at h
  rw [List.getLast?_reverse] at h
  cases hd : (l.dropWhile Char.isWhitespace).reverse.dropWhile Char.isWhitespace with
  | nil => rw [hd] at h; cases h
  | cons c2 cs2 =>
    rw [hd, List.head?_cons] at h
    injection h with h3
    rw [← h3]
    exact head_dropWhile_false _ _ c2 cs2 hd

/-- The first character of a stripped string is not whitespace. -/
theorem strip_head_not_ws (l : List Char) (c : Char) (cs : List Char)
    (h : strip l = c :: cs) : c.isWhitespace = false := by
  have hh : (strip l).head? = some c := by rw [h]; rfl
  unfold strip at hh
  rw [List.head?_reverse] at hh
  obtain ⟨t, ht⟩ := List.dropWhile_suffix
    (l := (l.dropWhile Char.isWhitespace).reverse) Char.isWhitespace
  have hne : (l.dropWhile Char.isWhitespace).reverse.dropWhile Char.isWhitespace ≠ [] := by
    intro hnil; rw [hnil] at hh; cases hh
  have h2 : ((l.dropWhile Char.isWhitespace).reverse).getLast? = some c := by
    rw [← ht, List.getLast?_append_of_ne_nil _ hne]
    exact hh
  rw [List.getLast?_reverse] at h2
  cases hd : l.dropWhile Char.isWhitespace with
  | nil => rw [hd] at h2; cases h2
  | cons c2 cs2 =>
    rw [hd, List.head?_cons] at h2
    injection h2 with h3
    rw [← h3]
    exact head_dropWhile_false _ _ c2 cs2 hd

/-- A captured city group is non-empty and consists of class characters. -/
theorem cityAtComma_class (tail : List Char → Bool) (after g : List Char)
    (h : cityAtComma tail after = some g) :
    g ≠ [] ∧ ∀ c ∈ g, cityClass c = true := by
  obtain ⟨w, hw, hw2⟩ := findSome_exists _ _ _ h
  obtain ⟨p, hp, hp2⟩ := findSome_exists _ _ _ hw2
  by_cases hcond : (!p.1.isEmpty && tail p.2) = true
  · rw [if_pos hcond] at hp2
    injection hp2 with hg
    simp only [Bool.and_eq_true, Bool.not_eq_true'] at hcond
    unfold splitsDesc at hp
    obtain ⟨j, hj, hpj⟩ := List.mem_map.mp hp
    have hfst : (w.2.takeWhile cityClass).take j = p.1 := congrArg Prod.fst hpj
    constructor
    · intro hnil
      rw [hg, hnil] at hcond
      simp at hcond
    · intro c hc
      rw [← hg, ← hfst] at hc
      exact List.mem_takeWhile_imp (List.take_subset j _ hc)
  · rw [if_neg hcond] at hp2
    cases hp2

/-- A successful city search comes from a successful match at some comma. -/
theorem citySearch_some (tail : List Char → Bool) :
    ∀ l g, citySearch tail l = some g → ∃ after, cityAtComma tail after = some g := by
  intro l
  induction l with
  | nil => intro g h; cases h
  | cons c rest ih =>
    intro g h
    by_cases hc : c = ','
    · rw [citySearch, if_pos hc] at h
      cases hm : cityAtComma tail rest with
      | some g2 =>
        rw [hm] at h
        simp only [] at h
        exact ⟨rest, by rw [hm]; exact h⟩
      | none => rw [hm] at h; exact ih g h
    · rw [citySearch, if_neg hc] at h
      exact ih g h

/-- A stripped captured group is empty or made of class characters with an
alphabetic first and last character. -/
theorem strip_city_shape (tail : List Char → Bool) (address g : List Char)
    (h : citySearch tail address = some g) :
    strip g = [] ∨
    ((∀ c ∈ strip g, cityClass c = true) ∧
     (∃ c cs, strip g = c :: cs ∧ c.isAlpha = true) ∧
     (∃ c, (strip g).getLast? = some c ∧ c.isAlpha = true)) := by
  obtain ⟨after, hac⟩ := citySearch_some tail address g h
  obtain ⟨-, hgclass⟩ := cityAtComma_class tail after g hac
  by_cases hs0 : strip g = []
  · exact Or.inl hs0
  · right
    obtain ⟨c, cs, hs⟩ : ∃ c cs, strip g = c :: cs := by
      cases hq : strip g with
      | nil => exact absurd hq hs0
      | cons c cs => exact ⟨c, cs, rfl⟩
    have hclass : ∀ x ∈ strip g, cityClass x = true :=
      fun x hx => hgclass x (mem_strip g x hx)
    have hcc : cityClass c = true := hclass c (by rw [hs]; exact List.mem_cons_self c cs)
    have hcw := strip_head_not_ws g c cs hs
    have hca : c.isAlpha = true := by
      unfold cityClass at hcc
      rw [Bool.or_eq_true] at hcc
      rcases hcc with h1 | h1
      · exact h1
      · rw [hcw] at h1; cases h1
    have hne2 : strip g ≠ [] := by rw [hs]; exact List.cons_ne_nil c cs
    obtain ⟨d, hd⟩ := Option.isSome_iff_exists.mp (List.getLast?_isSome.mpr hne2)
    have hdc : cityClass d = true := hclass d (List.mem_of_mem_getLast? (by simp [hd]))
    have hdw := strip_getLast_not_ws g d hd
    have hda : d.isAlpha = true := by
      unfold cityClass at hdc
      rw [Bool.or_eq_true] at hdc
      rcases hdc with h1 | h1
      · exact h1
      · rw [hdw] at h1; cases h1
    exact ⟨hclass, ⟨c, cs, hs, hca⟩, ⟨d, hd, hda⟩⟩

/-- Every non-empty extract_city result is well-formed: class characters
only, beginning and ending with a letter. -/
theorem extract_city_shape (address : List Char) :
    extract_city_from_address address = [] ∨
    ((∀ c ∈ extract_city_from_address address, cityClass c = true) ∧
     (∃ c cs, extract_city_from_address address = c :: cs ∧ c.isAlpha = true) ∧
     (∃ c, (extract_city_from_address address).getLast? = some c ∧ c.isAlpha = true)) := by
  unfold extract_city_from_address
  by_cases ha : address.isEmpty = true
  · rw [if_pos ha]; exact Or.inl rfl
  · rw [if_neg ha]
    cases h1 : citySearch cityTail1 address with
    | some g => simp only [h1]; exact strip_city_shape cityTail1 address g h1
    | none =>
      simp only [h1]
      cases h2 : citySearch cityTail2 address with
      | some g => simp only [h2]; exact strip_city_shape cityTail2 address g h2
      | none => simp only [h2]; exact Or.inl (by trivial)

/-- Any ZIP the position matcher returns is five digits, optionally extended
by a dash and four digits. -/
theorem zipAt_shape (l z : List Char) (h : zipAt l = some z) :
    (z.length = 5 ∧ z.all Char.isDigit = true) ∨
    (∃ a b, z = a ++ '-' :: b ∧ a.length = 5 ∧ b.length = 4 ∧
      a.all Char.isDigit = true ∧ b.all Char.isDigit = true) := by
  unfold zipAt at h
  split at h
  case isTrue hc =>
    simp only [Bool.and_eq_true, decide_eq_true_eq] at hc
    split at h
    · cases h
      exact Or.inl ⟨hc.1, hc.2⟩
    · rename_i rest heq
      split at h
      case isTrue hc4 =>
        simp only [Bool.and_eq_true, decide_eq_true_eq] at hc4
        split at h
        · cases h
          exact Or.inr ⟨l.take 5, rest.take 4, rfl, hc.1, hc4.1, hc.2, hc4.2⟩
        · split at h
          · cases h
            exact Or.inl ⟨hc.1, hc.2⟩
          · cases h
            exact Or.inr ⟨l.take 5, rest.take 4, rfl, hc.1, hc4.1, hc.2, hc4.2⟩
      case isFalse =>
        cases h
        exact Or.inl ⟨hc.1, hc.2⟩
    · split at h
      · cases h
      · cases h
        exact Or.inl ⟨hc.1, hc.2⟩
  case isFalse => cases h

/-- Any ZIP the scan returns is well-formed. -/
theorem zipScan_shape (l : List Char) : ∀ prev z, zipScan prev l = some z →
    (z.length = 5 ∧ z.all Char.isDigit = true) ∨
    (∃ a b, z = a ++ '-' :: b ∧ a.length = 5 ∧ b.length = 4 ∧
      a.all Char.isDigit = true ∧ b.all Char.isDigit = true) := by
  induction l with
  | nil => intro prev z h; cases h
  | cons c cs ih =>
    intro prev z h
    rw [zipScan.eq_def] at h
    simp only [] at h
    split at h
    · cases hz : zipAt (c :: cs) with
      | some z2 =>
        rw [hz] at h
        simp only [] at h
        injection h with h2
        exact h2 ▸ zipAt_shape (c :: cs) z2 hz
      | none =>
        rw [hz] at h
        exact ih (some c) z h
    · exact ih (some c) z h

/-- Every non-empty extract_zip result is well-formed. -/
theorem extract_zip_shape (address : List Char) :
    extract_zip address = [] ∨
    ((extract_zip address).length = 5 ∧ (extract_zip address).all Char.isDigit = true) ∨
    (∃ a b, extract_zip address = a ++ '-' :: b ∧ a.length = 5 ∧ b.length = 4 ∧
      a.all Char.isDigit = true ∧ b.all Char.isDigit = true) := by
  unfold extract_zip
  cases hz : zipScan none address with
  | none => exact Or.inl rfl
  | some z => exact Or.inr (by simpa using zipScan_shape address none z hz)

/-- C9: the field extractors never fail and never return partial or
malformed values: the concrete example address yields city "Oakland" and ZIP
"94607"; every non-empty extract_zip result is exactly five digits or five
digits, a dash and four digits; every non-empty extract_city result consists
only of letters and whitespace and begins and ends with a letter; absence of
a match yields the empty string by construction of the total functions. -/
theorem field_extractors_wellformed :
    extract_city_from_address (chars "123 Main St, Oakland, CA 94607") = chars "Oakland" ∧
    extract_zip (chars "123 Main St, Oakland, CA 94607") = chars "94607" ∧
    (∀ address, extract_zip address = [] ∨
      ((extract_zip address).length = 5 ∧ (extract_zip address).all Char.isDigit = true) ∨
      (∃ a b, extract_zip address = a ++ '-' :: b ∧ a.length = 5 ∧ b.length = 4 ∧
        a.all Char.isDigit = true ∧ b.all Char.isDigit = true)) ∧
    (∀ address, extract_city_from_address address = [] ∨
      ((∀ c ∈ extract_city_from_address address, cityClass c = true) ∧
       (∃ c cs, extract_city_from_address address = c :: cs ∧ c.isAlpha = true) ∧
       (∃ c, (extract_city_from_address address).getLast? = some c ∧ c.isAlpha = true))) :=
  ⟨by decide, by decide, extract_zip_shape, extract_city_shape⟩
